import Mathlib

/-!
Shallow embedding of the xyqueue repository.

`xyqueue.Queue` (src/queue.go) is a FIFO queue over a comparable element
type with optional de-duplication.  Its observable state is the backing
slice `data` (FIFO order, head first), the presence map `set` (only used
when `dedup` is true; a Go `map[T]struct{}`, i.e. a finite set of keys),
and the immutable `dedup` flag.  The `sync.Mutex` only serialises calls
and carries no sequential semantics, so it is not part of the state.
The Go map is modelled as a duplicate-free-by-construction list of keys:
insertion appends the key when absent, deletion removes every occurrence
of the key (a Go map holds a key at most once).

`blockingqueue.Queue` (src/blockingqueue/blockingqueue.go) wraps the base
queue with a mutex/condvar; its operations delegate to the base queue and
issue condition-variable broadcasts.  Broadcasts are modelled as an
explicit count in the result so that wake-up claims become statements
about data.
-/

set_option autoImplicit false

namespace Xyqueue

variable {T : Type} [DecidableEq T]

/-- State of `xyqueue.Queue[T]` (src/queue.go lines 12-17): backing slice
`data`, presence set `set` (used only in dedup mode), immutable `dedup`. -/
structure Queue (T : Type) where
  data : List T
  set : List T
  dedup : Bool
  deriving Repr, DecidableEq

/-- Go `_, exists := q.set[v]`: key lookup in the presence map. -/
def setMem (s : List T) (v : T) : Bool :=
  s.contains v

/-- Go `q.set[v] = struct{}{}`: map insert; a key already present is left
as is (a Go map holds each key once). -/
def setInsert (s : List T) (v : T) : List T :=
  if s.contains v then s else s ++ [v]

/-- Go `delete(q.set, v)`: map delete removes the key entirely. -/
def setErase (s : List T) (v : T) : List T :=
  s.filter (fun x => x ≠ v)

/-- Constructor `New` (src/queue.go lines 23-32): empty data, empty set (a nil Go map
and an empty map are indistinguishable through the queue API), given flag. -/
def new (T : Type) (dedup : Bool) : Queue T :=
  { data := [], set := [], dedup := dedup }

/-- Go `if capacity < 0 { capacity = 0 }` in `NewWithCapacity`. -/
def clampCapacity (capacity : Int) : Int :=
  if capacity < 0 then 0 else capacity

/-- Constructor `NewWithCapacity` (src/queue.go lines 37-49): clamps a negative
capacity to zero and preallocates storage.  Capacity only sets the initial
slice/map allocation (`make([]T, 0, capacity)`), which is invisible to
every API operation, so the resulting state carries no capacity. -/
def newWithCapacity (T : Type) (dedup : Bool) (capacity : Int) : Queue T :=
  let _ := clampCapacity capacity
  { data := [], set := [], dedup := dedup }

/-- Operation `Queue.Enqueue` (src/queue.go lines 55-66). Returns the updated queue
and the `bool` result. -/
def Queue.enqueue (q : Queue T) (v : T) : Queue T × Bool :=
  if q.dedup then
    if setMem q.set v then
      (q, false)
    else
      ({ q with set := setInsert q.set v, data := q.data ++ [v] }, true)
  else
    ({ q with data := q.data ++ [v] }, true)

/-- Loop body of `Queue.EnqueueMany` (src/queue.go lines 72-87), carrying
the `added` counter through the `for _, v := range items` loop. -/
def Queue.enqueueManyLoop (q : Queue T) : List T → Nat → Queue T × Nat
  | [], added => (q, added)
  | v :: rest, added =>
    if q.dedup then
      if setMem q.set v then
        Queue.enqueueManyLoop q rest added
      else
        Queue.enqueueManyLoop
          { q with set := setInsert q.set v, data := q.data ++ [v] } rest (added + 1)
    else
      Queue.enqueueManyLoop { q with data := q.data ++ [v] } rest (added + 1)

/-- Operation `Queue.EnqueueMany` (src/queue.go lines 72-87): enqueue each item in
order, return the count actually added. -/
def Queue.enqueueMany (q : Queue T) (items : List T) : Queue T × Nat :=
  Queue.enqueueManyLoop q items 0

/-- Operation `Queue.Dequeue` (src/queue.go lines 92-106).  Go returns
`(zero, false)` on empty with no mutation; `(v, true)` otherwise, popping
the head and deleting it from the presence set in dedup mode.  The value
result is an `Option`: `none` is Go's `(zero-value, ok=false)`. -/
def Queue.dequeue (q : Queue T) : Queue T × Option T :=
  match q.data with
  | [] => (q, none)
  | v :: rest =>
    ({ q with data := rest, set := if q.dedup then setErase q.set v else q.set }, some v)

/-- Operation `Queue.Peek` (src/queue.go lines 110-118). -/
def Queue.peek (q : Queue T) : Option T :=
  match q.data with
  | [] => none
  | v :: _ => some v

/-- Operation `Queue.Len` (src/queue.go lines 122-126). -/
def Queue.len (q : Queue T) : Nat :=
  q.data.length

/-- Operation `Queue.IsEmpty` (src/queue.go lines 130-132). -/
def Queue.isEmpty (q : Queue T) : Bool :=
  q.len == 0

/-- Operation `Queue.Contains` (src/queue.go lines 136-149): set lookup in dedup
mode, linear scan otherwise. -/
def Queue.containsVal (q : Queue T) (v : T) : Bool :=
  if q.dedup then setMem q.set v
  else q.data.contains v

/-- The `for i, x := range q.data` loop of `Queue.Remove`
(src/queue.go lines 156-167): delete the first occurrence of `v`,
returning `none` when `v` never occurs. -/
def removeFirst : List T → T → Option (List T)
  | [], _ => none
  | x :: rest, v =>
    if x = v then some rest
    else (removeFirst rest v).map (fun l => x :: l)

/-- Operation `Queue.Remove` (src/queue.go lines 153-168): drop the first occurrence
of `v` from `data` (preserving the rest), delete `v` from the presence set
in dedup mode, return whether anything was removed. -/
def Queue.removeVal (q : Queue T) (v : T) : Queue T × Bool :=
  match removeFirst q.data v with
  | none => (q, false)
  | some data' =>
    ({ q with data := data', set := if q.dedup then setErase q.set v else q.set }, true)

/-- Operation `Queue.Clear` (src/queue.go lines 173-180): truncate the data slice;
clear the presence set in dedup mode (in non-dedup mode the set is nil and
untouched). -/
def Queue.clearAll (q : Queue T) : Queue T :=
  { q with data := [], set := if q.dedup then [] else q.set }

/-- Operation `Queue.ToSlice` (src/queue.go lines 184-190): an independent copy of
the contents in FIFO order. -/
def Queue.toSlice (q : Queue T) : List T :=
  q.data

/-- Specification-side batch enqueue, written from the spec's words
"applies `enqueue` to each value in the given order; returns how many were
actually added", to be compared with `Queue.enqueueMany` (whose body
inlines the per-item logic). -/
def Queue.enqueueEachSpec (q : Queue T) : List T → Queue T × Nat
  | [] => (q, 0)
  | v :: rest =>
    let r := Queue.enqueue q v
    let r2 := Queue.enqueueEachSpec r.1 rest
    (r2.1, (if r.2 then 1 else 0) + r2.2)

/-- Repeated single-value `Enqueue` of a list of values, in order (models a
producer issuing successive `Enqueue` calls). -/
def enqueueAll (q : Queue T) (items : List T) : Queue T :=
  items.foldl (fun acc v => (Queue.enqueue acc v).1) q

/-- Iterated `Dequeue`: performs up to `n` successive `Dequeue` calls,
collecting the values returned with `ok = true` in order and stopping at
the first `ok = false`. -/
def dequeueN : Queue T → Nat → List T × Queue T
  | q, 0 => ([], q)
  | q, n + 1 =>
    match Queue.dequeue q with
    | (q', none) => ([], q')
    | (q', some v) =>
      let r := dequeueN q' n
      (v :: r.1, r.2)

/-- Mutating operations of the base queue, for statements quantifying over
arbitrary operation sequences. -/
inductive Op (T : Type) where
  | enq : T → Op T
  | enqMany : List T → Op T
  | deq : Op T
  | rem : T → Op T
  | clr : Op T

/-- Apply one operation to the queue state (result values discarded). -/
def applyOp (q : Queue T) : Op T → Queue T
  | Op.enq v => (Queue.enqueue q v).1
  | Op.enqMany items => (Queue.enqueueMany q items).1
  | Op.deq => (Queue.dequeue q).1
  | Op.rem v => (Queue.removeVal q v).1
  | Op.clr => Queue.clearAll q

/-- Apply a sequence of operations left to right. -/
def applyOps (q : Queue T) (ops : List (Op T)) : Queue T :=
  ops.foldl applyOp q

/-- Dedup-mode membership invariant (spec section 3): the presence set
contains `v` iff `v` appears in the stored sequence, and the stored
sequence holds each value at most once. -/
def DedupInv (q : Queue T) : Prop :=
  (∀ v : T, v ∈ q.set ↔ v ∈ q.data) ∧ q.data.Nodup

end Xyqueue

namespace Blockingqueue

open Xyqueue

variable {T : Type} [DecidableEq T]

/-- Errors observable from `Take`.  `canceled` and `deadlineExceeded` are
`context.Canceled` and `context.DeadlineExceeded`; `other` stands for any
distinct error value (used only to state what `IsContextError` rejects). -/
inductive GoError where
  | canceled : GoError
  | deadlineExceeded : GoError
  | other : String → GoError
  deriving Repr, DecidableEq

/-- Function `IsContextError` (src/blockingqueue/blockingqueue.go lines
161-163): `errors.Is(err, context.Canceled) || errors.Is(err,
context.DeadlineExceeded)`.  The package never wraps errors, so
`errors.Is` is equality on these sentinel values. -/
def isContextError : GoError → Bool
  | GoError.canceled => true
  | GoError.deadlineExceeded => true
  | GoError.other _ => false

/-- The two ways a context can fire: explicit cancel, or deadline expiry. -/
inductive CtxDone where
  | canceled : CtxDone
  | deadlineExceeded : CtxDone
  deriving Repr, DecidableEq

/-- State of a `context.Context` as `Take` observes it: `done = none`
means `ctx.Done()` has not fired and `ctx.Err()` is nil; `done = some k`
means the context has fired with the corresponding error. -/
structure Ctx where
  done : Option CtxDone
  deriving Repr, DecidableEq

/-- Result of `ctx.Err()` for a fired context. -/
def ctxErr : CtxDone → GoError
  | CtxDone.canceled => GoError.canceled
  | CtxDone.deadlineExceeded => GoError.deadlineExceeded

/-- Go `context.Background()`: a context that never fires. -/
def background : Ctx :=
  { done := none }

/-- State of `blockingqueue.Queue[T]` (src/blockingqueue/blockingqueue.go
lines 16-20): the wrapped base queue.  The mutex and condition variable
carry no sequential state; broadcasts they mediate are reported in the
results of `put`/`putMany` below. -/
structure BQueue (T : Type) where
  q : Queue T
  deriving Repr, DecidableEq

/-- Constructor `New` (src/blockingqueue/blockingqueue.go lines 23-27). -/
def bnew (T : Type) (dedup : Bool) : BQueue T :=
  { q := Xyqueue.new T dedup }

/-- Constructor `NewWithCapacity` (src/blockingqueue/blockingqueue.go
lines 30-34). -/
def bnewWithCapacity (T : Type) (dedup : Bool) (capacity : Int) : BQueue T :=
  { q := Xyqueue.newWithCapacity T dedup capacity }

/-- Operation `Queue.Put` (src/blockingqueue/blockingqueue.go lines
39-47): enqueue under the lock; `if added { b.cv.Broadcast() }`.  Result:
new state, the returned `added` flag, and the number of `Broadcast` calls
issued. -/
def BQueue.put (b : BQueue T) (v : T) : BQueue T × Bool × Nat :=
  let r := Queue.enqueue b.q v
  ({ q := r.1 }, r.2, if r.2 then 1 else 0)

/-- Operation `Queue.PutMany` (src/blockingqueue/blockingqueue.go lines
51-59): batch enqueue under the lock; `if n > 0 { b.cv.Broadcast() }`.
Result: new state, the returned count, and the number of `Broadcast`
calls issued. -/
def BQueue.putMany (b : BQueue T) (items : List T) : BQueue T × Nat × Nat :=
  let r := Queue.enqueueMany b.q items
  ({ q := r.1 }, r.2, if 0 < r.2 then 1 else 0)

/-- Operation `Queue.TryTake` (src/blockingqueue/blockingqueue.go lines
63-68). -/
def BQueue.tryTake (b : BQueue T) : BQueue T × Option T :=
  let r := Queue.dequeue b.q
  ({ q := r.1 }, r.2)

/-- Result of a terminating `Take` call: a value, or an error. -/
inductive TakeOutcome (T : Type) where
  | ok : T → TakeOutcome T
  | err : GoError → TakeOutcome T
  deriving Repr, DecidableEq

/-- Operation `Queue.Take` (src/blockingqueue/blockingqueue.go lines
72-109), as observed with no concurrent producer and a context whose
state does not change during the call.  A nil context argument (`none`)
is replaced by `context.Background()` (line 73-75).  Fast path: `Dequeue`
under the lock; on success return the value with a nil error.  Otherwise
the wait loop runs: when the context has fired, the watcher goroutine's
`Broadcast` wakes `cv.Wait`, the re-checked `Dequeue` still fails, and
`ctx.Err()` is returned with the zero value (this wake delivery is the
concurrency fact the model takes as given); when the context never fires
and no producer exists, `cv.Wait` parks forever, modelled as `none`. -/
def BQueue.take (b : BQueue T) (ctxArg : Option Ctx) : Option (BQueue T × TakeOutcome T) :=
  let ctx := ctxArg.getD background
  match Queue.dequeue b.q with
  | (q', some v) => some ({ q := q' }, TakeOutcome.ok v)
  | (_, none) =>
    match ctx.done with
    | some k => some (b, TakeOutcome.err (ctxErr k))
    | none => none

end Blockingqueue

namespace Xyqueue

variable {T : Type} [DecidableEq T]

theorem enqueue_nondedup (data s : List T) (v : T) :
    Queue.enqueue ⟨data, s, false⟩ v = (⟨data ++ [v], s, false⟩, true) := by
  simp [Queue.enqueue]

theorem enqueueAll_nondedup (items : List T) (data s : List T) :
    enqueueAll ⟨data, s, false⟩ items = ⟨data ++ items, s, false⟩ := by
  induction items generalizing data with
  | nil => simp [enqueueAll]
  | cons v rest ih =>
    show enqueueAll (Queue.enqueue ⟨data, s, false⟩ v).1 rest = _
    rw [enqueue_nondedup]
    simpa using ih (data ++ [v])

theorem dequeue_nondedup_cons (v : T) (rest s : List T) :
    Queue.dequeue ⟨v :: rest, s, false⟩ = (⟨rest, s, false⟩, some v) := by
  simp [Queue.dequeue]

theorem dequeueN_nondedup (l s : List T) :
    dequeueN ⟨l, s, false⟩ l.length = (l, ⟨[], s, false⟩) := by
  induction l with
  | nil => simp [dequeueN]
  | cons v rest ih => simp [dequeueN, dequeue_nondedup_cons, ih]

/-- C1: FIFO order in non-dedup mode.  Starting from `New(false)`,
enqueueing any list of values via successive `Enqueue` calls and then
performing as many `Dequeue` calls returns exactly those values in order,
each with `ok = true` (the collected list has full length, so no call
returned `ok = false`), leaves the queue in the fresh empty state, and a
further `Dequeue` on that state returns `ok = false` with no value and no
state change. -/
theorem fifo_order_nondedup (l : List T) :
    dequeueN (enqueueAll (new T false) l) l.length = (l, new T false) ∧
    Queue.dequeue (new T false) = (new T false, none) := by
  constructor
  · have h1 : enqueueAll (new T false) l = ⟨l, [], false⟩ := by
      simpa [new] using enqueueAll_nondedup l [] []
    rw [h1]
    simpa [new] using dequeueN_nondedup l []
  · simp [Queue.dequeue, new]

/-- C2: single-value enqueue semantics.  In dedup mode, enqueueing a value
currently present (as reported by `Contains`) returns `false` and leaves
the queue unchanged; enqueueing an absent value appends it to the tail of
`data`, inserts it into the presence set and returns `true`.  In non-dedup
mode, enqueue always appends to the tail and returns `true`. -/
theorem dedup_enqueue_spec (q : Queue T) (v : T) :
    (q.dedup = true →
      ((Queue.containsVal q v = true → Queue.enqueue q v = (q, false)) ∧
       (Queue.containsVal q v = false →
          Queue.enqueue q v =
            ({ data := q.data ++ [v], set := q.set ++ [v], dedup := q.dedup }, true)))) ∧
    (q.dedup = false →
      Queue.enqueue q v = ({ data := q.data ++ [v], set := q.set, dedup := q.dedup }, true)) := by
  refine ⟨fun hd => ⟨fun hc => ?_, fun hc => ?_⟩, fun hd => ?_⟩
  · simp_all [Queue.enqueue, Queue.containsVal, setMem]
  · simp_all [Queue.enqueue, Queue.containsVal, setMem, setInsert]
  · simp_all [Queue.enqueue]

/-- Witness for C2 at concrete inputs: a dedup queue holding `1` rejects
`1` unchanged, accepts `2` appending to data and set, and a non-dedup
queue accepts a duplicate. -/
theorem dedup_enqueue_spec_witness :
    Queue.enqueue (⟨[1], [1], true⟩ : Queue Nat) 1 = (⟨[1], [1], true⟩, false) ∧
    Queue.enqueue (⟨[1], [1], true⟩ : Queue Nat) 2 = (⟨[1, 2], [1, 2], true⟩, true) ∧
    Queue.enqueue (⟨[1], [], false⟩ : Queue Nat) 1 = (⟨[1, 1], [], false⟩, true) := by
  refine ⟨?_, ?_, ?_⟩
  · exact ((dedup_enqueue_spec ⟨[1], [1], true⟩ 1).1 rfl).1 (by decide)
  · exact ((dedup_enqueue_spec ⟨[1], [1], true⟩ 2).1 rfl).2 (by decide)
  · exact (dedup_enqueue_spec ⟨[1], [], false⟩ 1).2 rfl

end Xyqueue

namespace Xyqueue

variable {T : Type} [DecidableEq T]

theorem mem_setErase (s : List T) (v x : T) : x ∈ setErase s v ↔ x ∈ s ∧ x ≠ v := by
  simp [setErase]

theorem mem_setInsert (s : List T) (v x : T) : x ∈ setInsert s v ↔ x ∈ s ∨ x = v := by
  by_cases h : s.contains v = true
  · have hv : v ∈ s := by simpa using h
    simp only [setInsert, h, if_true]
    exact ⟨fun hx => Or.inl hx, fun hx => hx.elim id (fun he => he ▸ hv)⟩
  · have hv : v ∉ s := by simpa using h
    simp [setInsert, h, hv, List.mem_append]

theorem enqueue_dedup (q : Queue T) (v : T) : (Queue.enqueue q v).1.dedup = q.dedup := by
  rcases q with ⟨data, s, dd⟩
  by_cases hm : setMem s v = true <;> cases dd <;> simp [Queue.enqueue, hm]

theorem dequeue_dedup (q : Queue T) : (Queue.dequeue q).1.dedup = q.dedup := by
  rcases q with ⟨data, s, dd⟩
  cases data <;> simp [Queue.dequeue]

theorem removeVal_dedup (q : Queue T) (v : T) : (Queue.removeVal q v).1.dedup = q.dedup := by
  rcases h : removeFirst q.data v with _ | l <;> simp [Queue.removeVal, h]

theorem clearAll_dedup (q : Queue T) : (Queue.clearAll q).dedup = q.dedup := rfl

theorem enqueueEachSpec_dedup (q : Queue T) (items : List T) :
    (Queue.enqueueEachSpec q items).1.dedup = q.dedup := by
  induction items generalizing q with
  | nil => rfl
  | cons v rest ih => simp [Queue.enqueueEachSpec, ih, enqueue_dedup]

theorem enqueueManyLoop_fst (items : List T) (q : Queue T) (added : Nat) :
    (Queue.enqueueManyLoop q items added).1 = (Queue.enqueueEachSpec q items).1 := by
  induction items generalizing q added with
  | nil => rfl
  | cons v rest ih =>
    by_cases hd : q.dedup = true
    · by_cases hm : setMem q.set v = true
      · simp [Queue.enqueueManyLoop, Queue.enqueueEachSpec, Queue.enqueue, hd, hm, ih]
      · simp [Queue.enqueueManyLoop, Queue.enqueueEachSpec, Queue.enqueue, hd, hm, ih]
    · simp [Queue.enqueueManyLoop, Queue.enqueueEachSpec, Queue.enqueue, hd, ih]

theorem enqueueManyLoop_snd (items : List T) (q : Queue T) (added : Nat) :
    (Queue.enqueueManyLoop q items added).2 = added + (Queue.enqueueEachSpec q items).2 := by
  induction items generalizing q added with
  | nil => simp [Queue.enqueueManyLoop, Queue.enqueueEachSpec]
  | cons v rest ih =>
    by_cases hd : q.dedup = true
    · by_cases hm : setMem q.set v = true
      · simp [Queue.enqueueManyLoop, Queue.enqueueEachSpec, Queue.enqueue, hd, hm, ih]
      · simp [Queue.enqueueManyLoop, Queue.enqueueEachSpec, Queue.enqueue, hd, hm, ih]
        omega
    · simp [Queue.enqueueManyLoop, Queue.enqueueEachSpec, Queue.enqueue, hd, ih]
      omega

theorem enqueueMany_eq_each (q : Queue T) (items : List T) :
    Queue.enqueueMany q items = Queue.enqueueEachSpec q items := by
  apply Prod.ext
  · simpa [Queue.enqueueMany] using enqueueManyLoop_fst items q 0
  · simpa [Queue.enqueueMany] using enqueueManyLoop_snd items q 0

theorem enqueueMany_dedup (q : Queue T) (items : List T) :
    (Queue.enqueueMany q items).1.dedup = q.dedup := by
  rw [enqueueMany_eq_each]
  exact enqueueEachSpec_dedup q items

theorem dedupInv_new (d : Bool) : DedupInv (new T d) := by
  simp [DedupInv, new]

theorem dedupInv_enqueue (q : Queue T) (v : T) (hd : q.dedup = true) (h : DedupInv q) :
    DedupInv (Queue.enqueue q v).1 := by
  obtain ⟨hmem, hnd⟩ := h
  by_cases hm : setMem q.set v = true
  · simpa [Queue.enqueue, hd, hm, DedupInv] using ⟨hmem, hnd⟩
  · have hvs : v ∉ q.set := by simpa [setMem] using hm
    have hvd : v ∉ q.data := fun hc => hvs ((hmem v).mpr hc)
    constructor
    · intro x
      simp only [Queue.enqueue, hd, if_true, hm, if_false, Bool.false_eq_true]
      simp [mem_setInsert, List.mem_append, hmem x]
    · simp only [Queue.enqueue, hd, if_true, hm, if_false, Bool.false_eq_true]
      simp [List.nodup_append, hnd, hvd]

theorem dedupInv_dequeue (q : Queue T) (hd : q.dedup = true) (h : DedupInv q) :
    DedupInv (Queue.dequeue q).1 := by
  obtain ⟨hmem, hnd⟩ := h
  rcases q with ⟨data, s, dd⟩
  cases data with
  | nil => exact ⟨hmem, hnd⟩
  | cons v rest =>
    simp only at hd
    subst hd
    simp only [List.nodup_cons] at hnd
    constructor
    · intro x
      simp only [Queue.dequeue, if_true, mem_setErase]
      constructor
      · rintro ⟨hxs, hxv⟩
        rcases List.mem_cons.mp ((hmem x).mp hxs) with he | hr
        · exact absurd he hxv
        · exact hr
      · intro hr
        refine ⟨(hmem x).mpr (List.mem_cons.mpr (Or.inr hr)), ?_⟩
        intro he
        exact hnd.1 (he ▸ hr)
    · exact hnd.2

theorem removeFirst_eq_none (l : List T) (v : T) (h : v ∉ l) : removeFirst l v = none := by
  induction l with
  | nil => rfl
  | cons x rest ih =>
    have hx : ¬ x = v := fun he => h (by simp [he])
    have hr : v ∉ rest := fun hm => h (by simp [hm])
    simp [removeFirst, hx, ih hr]

theorem removeFirst_spec (l : List T) (v : T) (h : v ∈ l) :
    ∃ l1 l2, l = l1 ++ v :: l2 ∧ v ∉ l1 ∧ removeFirst l v = some (l1 ++ l2) := by
  induction l with
  | nil => cases h
  | cons x rest ih =>
    by_cases hx : x = v
    · subst hx
      exact ⟨[], rest, rfl, by simp, by simp [removeFirst]⟩
    · have hr : v ∈ rest := by
        rcases List.mem_cons.mp h with he | hrr
        · exact absurd he.symm hx
        · exact hrr
      obtain ⟨l1, l2, he, hn, hrf⟩ := ih hr
      refine ⟨x :: l1, l2, by simp [he], ?_, by simp [removeFirst, hx, hrf]⟩
      intro hc
      rcases List.mem_cons.mp hc with h1 | h1
      · exact hx h1.symm
      · exact hn h1

theorem dedupInv_removeVal (q : Queue T) (v : T) (hd : q.dedup = true) (h : DedupInv q) :
    DedupInv (Queue.removeVal q v).1 := by
  obtain ⟨hmem, hnd⟩ := h
  by_cases hv : v ∈ q.data
  · obtain ⟨l1, l2, he, hn1, hrf⟩ := removeFirst_spec q.data v hv
    have hnd' : (v :: (l1 ++ l2)).Nodup := by
      rw [he] at hnd
      exact List.nodup_middle.mp hnd
    simp only [List.nodup_cons] at hnd'
    constructor
    · intro x
      simp only [Queue.removeVal, hrf, hd, if_true, mem_setErase]
      constructor
      · rintro ⟨hxs, hxv⟩
        have hx : x ∈ l1 ++ v :: l2 := he ▸ (hmem x).mp hxs
        rcases List.mem_append.mp hx with h1 | h1
        · exact List.mem_append.mpr (Or.inl h1)
        · rcases List.mem_cons.mp h1 with h2 | h2
          · exact absurd h2 hxv
          · exact List.mem_append.mpr (Or.inr h2)
      · intro hx
        have hx' : x ∈ l1 ++ v :: l2 := by
          rcases List.mem_append.mp hx with h1 | h1
          · exact List.mem_append.mpr (Or.inl h1)
          · exact List.mem_append.mpr (Or.inr (List.mem_cons.mpr (Or.inr h1)))
        refine ⟨(hmem x).mpr (he ▸ hx'), ?_⟩
        intro hev
        exact hnd'.1 (hev ▸ hx)
    · simp only [Queue.removeVal, hrf, hd, if_true]
      exact hnd'.2
  · have hrf : removeFirst q.data v = none := removeFirst_eq_none q.data v hv
    simpa [Queue.removeVal, hrf, DedupInv] using ⟨hmem, hnd⟩

theorem dedupInv_clearAll (q : Queue T) (hd : q.dedup = true) :
    DedupInv (Queue.clearAll q) := by
  simp [DedupInv, Queue.clearAll, hd]

theorem dedupInv_enqueueEachSpec (items : List T) (q : Queue T) (hd : q.dedup = true)
    (h : DedupInv q) : DedupInv (Queue.enqueueEachSpec q items).1 := by
  induction items generalizing q with
  | nil => simpa [Queue.enqueueEachSpec] using h
  | cons v rest ih =>
    have hd' : (Queue.enqueue q v).1.dedup = true := by rw [enqueue_dedup]; exact hd
    simpa [Queue.enqueueEachSpec] using ih (Queue.enqueue q v).1 hd' (dedupInv_enqueue q v hd h)

theorem dedupInv_applyOp (q : Queue T) (op : Op T) (hd : q.dedup = true) (h : DedupInv q) :
    DedupInv (applyOp q op) := by
  cases op with
  | enq v => exact dedupInv_enqueue q v hd h
  | enqMany items =>
    show DedupInv (Queue.enqueueMany q items).1
    rw [enqueueMany_eq_each]
    exact dedupInv_enqueueEachSpec items q hd h
  | deq => exact dedupInv_dequeue q hd h
  | rem v => exact dedupInv_removeVal q v hd h
  | clr => exact dedupInv_clearAll q hd

theorem applyOp_dedup (q : Queue T) (op : Op T) : (applyOp q op).dedup = q.dedup := by
  cases op with
  | enq v => exact enqueue_dedup q v
  | enqMany items => exact enqueueMany_dedup q items
  | deq => exact dequeue_dedup q
  | rem v => exact removeVal_dedup q v
  | clr => exact clearAll_dedup q

theorem dedupInv_applyOps (ops : List (Op T)) (q : Queue T) (hd : q.dedup = true)
    (h : DedupInv q) : DedupInv (applyOps q ops) := by
  induction ops generalizing q with
  | nil => simpa [applyOps] using h
  | cons op rest ih =>
    have hd1 : (applyOp q op).dedup = true := by rw [applyOp_dedup]; exact hd
    simpa [applyOps] using ih (applyOp q op) hd1 (dedupInv_applyOp q op hd h)

/-- C3: membership-set invariant.  Starting from a freshly constructed
dedup-mode queue, after any sequence of `Enqueue`, `EnqueueMany`,
`Dequeue`, `Remove` and `Clear` operations, the presence set contains a
value iff it appears in the stored sequence, and the stored sequence holds
each value at most once. -/
theorem dedup_membership_invariant (ops : List (Op T)) :
    DedupInv (applyOps (new T true) ops) :=
  dedupInv_applyOps ops (new T true) rfl (dedupInv_new true)

/-- C4: batch enqueue.  `EnqueueMany` equals applying the single-value
enqueue rule to each value in order while counting the additions, and on a
fresh dedup queue `EnqueueMany("a","b","a","c","b")` returns 3 with
contents `["a","b","c"]` in FIFO order. -/
theorem enqueueMany_spec (q : Queue T) (items : List T) :
    Queue.enqueueMany q items = Queue.enqueueEachSpec q items ∧
    (Queue.enqueueMany (new String true) ["a", "b", "a", "c", "b"]).2 = 3 ∧
    ((Queue.enqueueMany (new String true) ["a", "b", "a", "c", "b"]).1).data =
      ["a", "b", "c"] := by
  refine ⟨enqueueMany_eq_each q items, ?_, ?_⟩ <;> rfl

end Xyqueue

namespace Xyqueue

variable {T : Type} [DecidableEq T]

theorem setMem_setErase_self (s : List T) (v : T) : setMem (setErase s v) v = false := by
  simp [setMem, setErase]

theorem enqueue_snd_of_not_mem (q : Queue T) (v : T) (h : setMem q.set v = false) :
    (Queue.enqueue q v).2 = true := by
  by_cases hd : q.dedup = true <;> simp [Queue.enqueue, hd, h]

/-- C5: re-admission after removal.  In dedup mode: on an empty queue not
holding `v` in its presence set, `Enqueue(v)` then `Dequeue()` yields `v`
and a second `Enqueue(v)` returns `added = true`; in general, whenever
`Dequeue` returns `v` or `Remove(v)` succeeds, the resulting state accepts
`Enqueue(v)` again (removal deletes `v` from the presence set). -/
theorem dedup_readmission (q q' : Queue T) (v : T) (hd : q.dedup = true) :
    (q.data = [] → setMem q.set v = false →
       (Queue.dequeue (Queue.enqueue q v).1).2 = some v ∧
       (Queue.enqueue (Queue.dequeue (Queue.enqueue q v).1).1 v).2 = true) ∧
    (Queue.dequeue q = (q', some v) → (Queue.enqueue q' v).2 = true) ∧
    (Queue.removeVal q v = (q', true) → (Queue.enqueue q' v).2 = true) := by
  refine ⟨fun he hm => ?_, fun hdq => ?_, fun hrm => ?_⟩
  · rcases q with ⟨data, s, dd⟩
    simp only at he hd
    subst he; subst hd
    have hv : v ∉ s := by simpa [setMem] using hm
    constructor
    · simp [Queue.enqueue, Queue.dequeue, setMem, hv]
    · apply enqueue_snd_of_not_mem
      have hset : (Queue.dequeue (Queue.enqueue (⟨[], s, true⟩ : Queue T) v).1).1.set =
          setErase (setInsert s v) v := by
        simp [Queue.enqueue, Queue.dequeue, setMem, hv]
      rw [hset]
      exact setMem_setErase_self (setInsert s v) v
  · rcases q with ⟨data, s, dd⟩
    simp only at hd; subst hd
    cases data with
    | nil => simp [Queue.dequeue] at hdq
    | cons x rest =>
      simp only [Queue.dequeue, if_true, Prod.mk.injEq, Option.some.injEq] at hdq
      obtain ⟨hq', hxv⟩ := hdq
      apply enqueue_snd_of_not_mem
      have hq2 : q'.set = setErase s v := by
        rw [← hq', hxv]
      rw [hq2]
      exact setMem_setErase_self s v
  · rcases hrf : removeFirst q.data v with _ | l
    · simp [Queue.removeVal, hrf] at hrm
    · simp only [Queue.removeVal, hrf, Prod.mk.injEq] at hrm
      apply enqueue_snd_of_not_mem
      rw [← hrm.1]
      simp only [hd, if_true]
      exact setMem_setErase_self q.set v

/-- Witness for C5: on a fresh dedup queue, enqueue 5, dequeue yields 5,
and re-enqueueing 5 succeeds; likewise after a dequeue (or remove) of 5
from a queue holding it. -/
theorem dedup_readmission_witness :
    ((Queue.dequeue (Queue.enqueue (⟨[], [], true⟩ : Queue Nat) 5).1).2 = some 5 ∧
     (Queue.enqueue (Queue.dequeue (Queue.enqueue (⟨[], [], true⟩ : Queue Nat) 5).1).1 5).2 =
       true) ∧
    (Queue.enqueue (⟨[], [], true⟩ : Queue Nat) 5).2 = true := by
  constructor
  · exact (dedup_readmission (⟨[], [], true⟩ : Queue Nat) ⟨[], [], true⟩ 5 rfl).1 rfl rfl
  · exact (dedup_readmission (⟨[5], [5], true⟩ : Queue Nat) ⟨[], [], true⟩ 5 rfl).2.1 (by decide)

/-- C6: Remove semantics.  When `v` occurs in the stored sequence,
`Remove(v)` deletes exactly the first occurrence (the data splits as
`l1 ++ v :: l2` with `v ∉ l1` and becomes `l1 ++ l2`), deletes `v` from
the presence set in dedup mode, and returns `true`; when `v` is absent it
returns `false` with the queue unchanged. -/
theorem remove_spec (q : Queue T) (v : T) :
    (v ∈ q.data → ∃ l1 l2, q.data = l1 ++ v :: l2 ∧ v ∉ l1 ∧
       Queue.removeVal q v =
         ({ data := l1 ++ l2,
            set := if q.dedup then setErase q.set v else q.set,
            dedup := q.dedup }, true)) ∧
    (v ∉ q.data → Queue.removeVal q v = (q, false)) := by
  constructor
  · intro hv
    obtain ⟨l1, l2, he, hn, hrf⟩ := removeFirst_spec q.data v hv
    exact ⟨l1, l2, he, hn, by simp [Queue.removeVal, hrf]⟩
  · intro hv
    simp [Queue.removeVal, removeFirst_eq_none q.data v hv]

/-- Witness for C6: removing 2 from a dedup queue holding 1,2,3 splits the
data around the occurrence of 2 and succeeds; removing an absent 9 fails
and changes nothing. -/
theorem remove_spec_witness :
    (∃ l1 l2, ([1, 2, 3] : List Nat) = l1 ++ 2 :: l2 ∧ 2 ∉ l1 ∧
       Queue.removeVal (⟨[1, 2, 3], [1, 2, 3], true⟩ : Queue Nat) 2 =
         ({ data := l1 ++ l2, set := setErase [1, 2, 3] 2, dedup := true }, true)) ∧
    Queue.removeVal (⟨[1, 2, 3], [1, 2, 3], true⟩ : Queue Nat) 9 =
      (⟨[1, 2, 3], [1, 2, 3], true⟩, false) := by
  constructor
  · exact (remove_spec (⟨[1, 2, 3], [1, 2, 3], true⟩ : Queue Nat) 2).1 (by decide)
  · exact (remove_spec (⟨[1, 2, 3], [1, 2, 3], true⟩ : Queue Nat) 9).2 (by decide)

/-- C9: capacity hint is behaviorally inert and negative capacity is
clamped.  The clamped capacity is never negative (so the Go `make` calls
cannot panic), and `NewWithCapacity(dedup, c)` builds the same state as
`New(dedup)` for every `c`, hence every subsequent operation sequence
yields identical states on both. -/
theorem newWithCapacity_equiv_new (d : Bool) (c : Int) :
    0 ≤ clampCapacity c ∧
    newWithCapacity T d c = new T d ∧
    ∀ ops : List (Op T), applyOps (newWithCapacity T d c) ops = applyOps (new T d) ops := by
  refine ⟨?_, rfl, fun ops => rfl⟩
  unfold clampCapacity
  split <;> omega

end Xyqueue

namespace Blockingqueue

open Xyqueue

variable {T : Type} [DecidableEq T]

/-- C7: cancellation of Take.  On an empty blocking queue, `Take` with an
already-fired context terminates with the zero value and the context's
error (`some` result: no divergence, the total model returns), the error
satisfies `IsContextError`, and explicit cancellation is distinguishable
from deadline expiry. -/
theorem take_cancelled_spec (b : BQueue T) (k : CtxDone) (he : b.q.data = []) :
    BQueue.take b (some { done := some k }) = some (b, TakeOutcome.err (ctxErr k)) ∧
    isContextError (ctxErr k) = true ∧
    ctxErr CtxDone.canceled ≠ ctxErr CtxDone.deadlineExceeded := by
  refine ⟨?_, ?_, by decide⟩
  · rcases b with ⟨⟨data, s, dd⟩⟩
    simp only at he
    subst he
    simp [BQueue.take, Queue.dequeue]
  · cases k <;> rfl

/-- Witness for C7: `Take` on a fresh empty queue with a canceled context
returns the cancellation error, classified as a context error. -/
theorem take_cancelled_spec_witness :
    BQueue.take (bnew Nat false) (some { done := some CtxDone.canceled }) =
      some (bnew Nat false, TakeOutcome.err (ctxErr CtxDone.canceled)) ∧
    isContextError (ctxErr CtxDone.canceled) = true ∧
    ctxErr CtxDone.canceled ≠ ctxErr CtxDone.deadlineExceeded :=
  take_cancelled_spec (bnew Nat false) CtxDone.canceled rfl

/-- C8: broadcast iff added.  `Put` broadcasts exactly once when the
underlying enqueue added the value and never otherwise (a dedup-rejected
`Put` wakes no waiter), and returns the underlying add result; `PutMany`
broadcasts exactly once iff its added count is positive, and returns that
count. -/
theorem put_broadcast_iff_added (b : BQueue T) (v : T) (items : List T) :
    ((BQueue.put b v).2.2 = 1 ↔ (Queue.enqueue b.q v).2 = true) ∧
    ((BQueue.put b v).2.2 = 0 ↔ (Queue.enqueue b.q v).2 = false) ∧
    (BQueue.put b v).2.1 = (Queue.enqueue b.q v).2 ∧
    ((BQueue.putMany b items).2.2 = 1 ↔ 0 < (Queue.enqueueMany b.q items).2) ∧
    ((BQueue.putMany b items).2.2 = 0 ↔ (Queue.enqueueMany b.q items).2 = 0) ∧
    (BQueue.putMany b items).2.1 = (Queue.enqueueMany b.q items).2 := by
  refine ⟨?_, ?_, rfl, ?_, ?_, rfl⟩
  · cases hb : (Queue.enqueue b.q v).2 <;> simp [BQueue.put, hb]
  · cases hb : (Queue.enqueue b.q v).2 <;> simp [BQueue.put, hb]
  · by_cases hn : 0 < (Queue.enqueueMany b.q items).2 <;> simp [BQueue.putMany, hn]
  · by_cases hn : 0 < (Queue.enqueueMany b.q items).2 <;> simp [BQueue.putMany, hn] <;> omega

/-- C10: nil context accepted by Take.  `Take(nil)` substitutes a
never-firing background context: on a non-empty queue it returns the head
value with a nil error, and no terminating run of `Take(nil)` ever
produces an error, whatever the queue state. -/
theorem take_nil_ctx_spec (b : BQueue T) (v : T) (rest : List T) :
    (b.q.data = v :: rest →
       BQueue.take b none =
         some ({ q := { data := rest,
                        set := if b.q.dedup then setErase b.q.set v else b.q.set,
                        dedup := b.q.dedup } }, TakeOutcome.ok v)) ∧
    (∀ p : BQueue T × TakeOutcome T, BQueue.take b none = some p →
       ∀ e : GoError, p.2 ≠ TakeOutcome.err e) := by
  constructor
  · intro hd
    rcases b with ⟨⟨data, s, dd⟩⟩
    simp only at hd
    subst hd
    simp [BQueue.take, Queue.dequeue, background]
  · intro p hp e
    rcases b with ⟨⟨data, s, dd⟩⟩
    cases data with
    | nil => simp [BQueue.take, Queue.dequeue, background] at hp
    | cons x rest' =>
      simp only [BQueue.take, Queue.dequeue, background, Option.getD, Option.some.injEq] at hp
      subst hp
      simp

/-- Witness for C10: `Take(nil)` on a queue holding 7 returns 7 with no
error, and the returned outcome is not an error value. -/
theorem take_nil_ctx_spec_witness :
    BQueue.take (⟨⟨[7], [], false⟩⟩ : BQueue Nat) none =
      some (⟨⟨[], [], false⟩⟩, TakeOutcome.ok 7) ∧
    ∀ e : GoError, ((⟨⟨[], [], false⟩⟩, TakeOutcome.ok 7) :
        BQueue Nat × TakeOutcome Nat).2 ≠ TakeOutcome.err e := by
  constructor
  · have h := (take_nil_ctx_spec (⟨⟨[7], [], false⟩⟩ : BQueue Nat) 7 []).1 rfl
    simpa using h
  · exact (take_nil_ctx_spec (⟨⟨[7], [], false⟩⟩ : BQueue Nat) 7 []).2
      (⟨⟨[], [], false⟩⟩, TakeOutcome.ok 7) (by rfl)

end Blockingqueue
